import Mathlib

/-!
Shallow embedding of the contiguous-storage sequence containers
(`DynamicArray`, `OrderedArray`) and the exchange sort (`bubbleSort`)
of the algorithms-cpp repository, with theorems checking the
specification's claims against the code.

Modelling conventions:
* Element type `T` is instantiated at `int`, modelled as `Int`
  (the containers are templates; all claims are about `int`-like values).
* `size_t` values are modelled as `Nat`; where the C++ code can wrap
  around below zero (`size - 1`, `mid - 1` on `size_t`) the wraparound
  is modelled explicitly: the wrapped value is astronomically large
  (`2^64 - 1`-ish), so the very next buffer probe reads far outside any
  real buffer (a buffer of 4-byte `int`s in a `2^64`-byte address space
  holds fewer than `2^62` elements), which we model as `.error .oob`.
* A raw out-of-bounds buffer access (undefined behavior in C++) is
  modelled as `.error .oob`; a thrown `std::out_of_range` is modelled
  as `.error .outOfRange`.  Fallible operations return `Except`; the
  checks appear in the same order as in the source, so an error is
  produced before any mutation, exactly as in the code.
* The live buffer contents `data[0 .. size)` are modelled as a
  `List Int` (`size` is its length); `capacity` is carried separately.
  Buffer cells at indices in `[size, capacity)` hold indeterminate
  values and are never read by any operation below; a read or write at
  an index `≥ capacity` is the out-of-bounds error.
-/

/-- Error outcomes of container operations: `outOfRange` models a thrown
`std::out_of_range`; `oob` models a raw out-of-bounds buffer access,
which is undefined behavior in the C++ source. -/
inductive ArrErr where
  | outOfRange
  | oob
deriving DecidableEq, Repr

deriving instance DecidableEq for Except

/-- Model of `DynamicArray<int>` (src/data_structures/array/DynamicArray.cpp):
`data` is the live prefix `data[0 .. size)` of the buffer, `capacity` the
allocated buffer length. -/
structure DynamicArray where
  data : List Int
  capacity : Nat
deriving DecidableEq, Repr

/-- Model of the `size` member: the number of live elements. -/
def DynamicArray.size (a : DynamicArray) : Nat := a.data.length

/-- Model of the default constructor `DynamicArray() : size(0), capacity(1)`. -/
def DynamicArray.new : DynamicArray := ⟨[], 1⟩

/-- Model of the initializer-list constructor:
`size(init.size()), capacity(init.size() * 2)`, contents copied. -/
def DynamicArray.ofList (l : List Int) : DynamicArray := ⟨l, l.length * 2⟩

/-- Model of `DynamicArray::getAt`: bound check `index >= size` throws,
otherwise returns `data[index]`. -/
def DynamicArray.getAt (a : DynamicArray) (index : Nat) : Except ArrErr Int :=
  if h : a.size ≤ index then .error .outOfRange
  else .ok (a.data.get ⟨index, Nat.lt_of_not_le h⟩)

/-- Model of `DynamicArray::setAt`: bound check `index >= size` throws,
otherwise overwrites `data[index]`. -/
def DynamicArray.setAt (a : DynamicArray) (index : Nat) (value : Int) :
    Except ArrErr DynamicArray :=
  if a.size ≤ index then .error .outOfRange
  else .ok ⟨a.data.set index value, a.capacity⟩

/-- Model of `DynamicArray::find`: linear scan left to right, first index
whose element equals `value`, else `-1`. -/
def DynamicArray.find (a : DynamicArray) (value : Int) : Int :=
  match a.data.findIdx? (fun x => x == value) with
  | some i => Int.ofNat i
  | none => -1

/-- Model of `DynamicArray::insert`.  The source checks `index > size`
(throw), then resizes to `capacity * 2` only when `index >= capacity`,
then shifts `data[index .. size)` up one slot and stores at `index`.
The shift/store phase always writes the cell `data[size]` (and the
resize copy writes `data[0 .. size)` into the new buffer), so when
`size` is not below the (possibly doubled) capacity the code writes
past the end of the allocation: modelled as `.error .oob`.  On success
the live prefix becomes `data.insertIdx index value`. -/
def DynamicArray.insert (a : DynamicArray) (index : Nat) (value : Int) :
    Except ArrErr DynamicArray :=
  if a.size < index then .error .outOfRange
  else
    let newCapacity := if a.capacity ≤ index then a.capacity * 2 else a.capacity
    if a.size < newCapacity then .ok ⟨a.data.insertIdx index value, newCapacity⟩
    else .error .oob

/-- Model of `DynamicArray::remove`: bound check `index >= size` throws;
otherwise the loop shifts `data[index+1 .. size)` down one slot and
decrements `size`, i.e. the live prefix becomes `data.eraseIdx index`. -/
def DynamicArray.remove (a : DynamicArray) (index : Nat) : Except ArrErr DynamicArray :=
  if a.size ≤ index then .error .outOfRange
  else .ok ⟨a.data.eraseIdx index, a.capacity⟩

/-- Direction of an `OrderedArray` as a binary relation: the non-strict
comparison that holds between earlier and later elements
(`x ≤ y` when ascending, `y ≤ x` when descending). -/
def dirRel (isAscending : Bool) (x y : Int) : Prop :=
  if isAscending then x ≤ y else y ≤ x

instance (isAscending : Bool) (x y : Int) : Decidable (dirRel isAscending x y) :=
  match isAscending with
  | true => inferInstanceAs (Decidable (x ≤ y))
  | false => inferInstanceAs (Decidable (y ≤ x))

instance (isAscending : Bool) : IsTotal Int (dirRel isAscending) :=
  ⟨by intro a b; cases isAscending <;> simp [dirRel] <;> omega⟩

instance (isAscending : Bool) : IsTrans Int (dirRel isAscending) :=
  ⟨by intro a b c; cases isAscending <;> simp [dirRel] <;> omega⟩

/-- Strict direction comparison: `x < y` when ascending, `y < x` when
descending.  `data[mid] < value` / `data[mid] > value` in the source's
binary search is exactly `sLt isAscending (data[mid]) value`. -/
def sLt (isAscending : Bool) (x y : Int) : Prop :=
  if isAscending then x < y else y < x

instance (isAscending : Bool) (x y : Int) : Decidable (sLt isAscending x y) :=
  match isAscending with
  | true => inferInstanceAs (Decidable (x < y))
  | false => inferInstanceAs (Decidable (y < x))

/-- Result of the binary-search loop of `OrderedArray::binarySearch`:
either the probe hit an element equal to the query (`found mid`,
the `return mid;` inside the loop), or the loop exited with
`left > right` (`notFound left`, reaching `return isInsertion ? left : -1;`). -/
inductive BsRes where
  | found (i : Nat)
  | notFound (left : Nat)
deriving DecidableEq, Repr

/-- Model of the `while (left <= right)` loop of `OrderedArray::binarySearch`.

Each iteration: `mid = left + (right - left) / 2`; probe `data[mid]`
(an index `≥ size` is a raw out-of-bounds read, `.error .oob`); return
`mid` on equality; move `left = mid + 1` when the probed element is
strictly direction-below `value`; otherwise `right = mid - 1` — and
when `mid == 0` that `size_t` subtraction wraps to `2^64 - 1`, so the
loop keeps running and its next probe is at index
`left + (2^64 - 1 - left) / 2 ≥ 2^63 - 1`, far beyond any real buffer:
modelled as `.error .oob`.

`fuel` is a structural-recursion bound only: every iteration shrinks
`right + 1 - left`, so `fuel > right + 1 - left` (as supplied by
`binarySearch` below and proved in `bsLoop_spec`) never runs out. -/
def bsLoop (data : List Int) (isAscending : Bool) (value : Int) :
    Nat → Nat → Nat → Except ArrErr BsRes
  | 0, _, _ => .error .oob
  | fuel + 1, left, right =>
    if left ≤ right then
      let mid := left + (right - left) / 2
      match data.get? mid with
      | none => .error .oob
      | some x =>
        if x = value then .ok (.found mid)
        else if sLt isAscending x value then
          bsLoop data isAscending value fuel (mid + 1) right
        else if mid = 0 then .error .oob
        else bsLoop data isAscending value fuel left (mid - 1)
    else .ok (.notFound left)

/-- Model of `OrderedArray::binarySearch`.  `left = 0`,
`right = size - 1`: when `size == 0` that `size_t` subtraction wraps to
`2^64 - 1`, the loop is entered and its first probe is at index
`(2^64 - 1) / 2 = 2^63 - 1`, far beyond any real buffer: `.error .oob`.
Otherwise the loop runs; on normal exit the source returns
`isInsertion ? left : -1`. -/
def binarySearch (data : List Int) (isAscending : Bool) (value : Int)
    (isInsertion : Bool) : Except ArrErr Int :=
  if data.length = 0 then .error .oob
  else
    match bsLoop data isAscending value (data.length + 1) 0 (data.length - 1) with
    | .error e => .error e
    | .ok (.found i) => .ok (Int.ofNat i)
    | .ok (.notFound left) => if isInsertion then .ok (Int.ofNat left) else .ok (-1)

/-- Model of `OrderedArray<int>` (src/data_structures/array/OrderedArray.cpp). -/
structure OrderedArray where
  data : List Int
  capacity : Nat
  isAscending : Bool
deriving DecidableEq, Repr

/-- Model of the `size` member. -/
def OrderedArray.size (a : OrderedArray) : Nat := a.data.length

/-- Model of the default constructor: `size(0), capacity(1)`. -/
def OrderedArray.new (ascending : Bool) : OrderedArray := ⟨[], 1, ascending⟩

/-- Model of the initializer-list constructor: `size(init.size()),
capacity(init.size() * 2)`, contents copied then sorted by
`std::sort` under the comparator `ascending ? a < b : a > b`.
`std::sort` run on `Int` values produces the unique direction-sorted
permutation of the input, here computed by `List.insertionSort`. -/
def OrderedArray.ofList (l : List Int) (ascending : Bool) : OrderedArray :=
  ⟨List.insertionSort (dirRel ascending) l, l.length * 2, ascending⟩

/-- Model of `OrderedArray::get`: bound check `index >= size` throws,
otherwise returns `data[index]`. -/
def OrderedArray.get (a : OrderedArray) (index : Nat) : Except ArrErr Int :=
  if h : a.size ≤ index then .error .outOfRange
  else .ok (a.data.get ⟨index, Nat.lt_of_not_le h⟩)

/-- Model of `OrderedArray::find`: `binarySearch(value, false)`. -/
def OrderedArray.find (a : OrderedArray) (value : Int) : Except ArrErr Int :=
  binarySearch a.data a.isAscending value false

/-- Model of `OrderedArray::insert`.  The source resizes to
`capacity * 2` when `size >= capacity` (the resize copy writes
`data[0 .. size)` into the new buffer, out of bounds if the new
capacity is below `size`), then runs the insertion-point search, then
shifts `data[index .. size)` up one slot and stores at `index`.  The
shift/store phase always writes the cell `data[size]`, so when `size`
is not below the (possibly doubled) capacity the code writes past the
end of the allocation: `.error .oob`. -/
def OrderedArray.insert (a : OrderedArray) (value : Int) : Except ArrErr OrderedArray :=
  let newCapacity := if a.capacity ≤ a.size then a.capacity * 2 else a.capacity
  if newCapacity < a.size then .error .oob
  else
    match binarySearch a.data a.isAscending value true with
    | .error e => .error e
    | .ok idx =>
      if a.size < newCapacity then
        .ok ⟨a.data.insertIdx idx.toNat value, newCapacity, a.isAscending⟩
      else .error .oob

/-- Model of `OrderedArray::remove`: identical to `DynamicArray::remove`. -/
def OrderedArray.remove (a : OrderedArray) (index : Nat) : Except ArrErr OrderedArray :=
  if a.size ≤ index then .error .outOfRange
  else .ok ⟨a.data.eraseIdx index, a.capacity, a.isAscending⟩

/-- The sort invariant of an `OrderedArray` state: every earlier element
is non-strictly direction-below every later element. -/
def OrdInv (a : OrderedArray) : Prop := a.data.Pairwise (dirRel a.isAscending)

instance (a : OrderedArray) : Decidable (OrdInv a) :=
  inferInstanceAs (Decidable (a.data.Pairwise (dirRel a.isAscending)))

/-- States reachable by a finite sequence of successful `insert` /
`remove` calls starting from any constructed state. -/
inductive OrderedArray.Reachable : OrderedArray → Prop where
  | new (ascending : Bool) : Reachable (OrderedArray.new ascending)
  | ofList (l : List Int) (ascending : Bool) : Reachable (OrderedArray.ofList l ascending)
  | insertStep {a b : OrderedArray} (value : Int) :
      Reachable a → a.insert value = .ok b → Reachable b
  | removeStep {a b : OrderedArray} (index : Nat) :
      Reachable a → a.remove index = .ok b → Reachable b

/-- Model of one pass of `bubbleSort`'s inner loop
(`for (i = 0; i < bound; ++i) if (arr[i] > arr[i+1]) swap`), carrying
the running (possibly swapped-forward) element; returns the array after
the pass and whether any swap happened.  Within `bubbleSort` the bound
never exceeds `length - 1`, so the fallback arm (bound left over on a
list with fewer than two elements) is never taken. -/
def bubblePass : List Int → Nat → List Int × Bool
  | x :: y :: rest, bound + 1 =>
    if y < x then
      let r := bubblePass (x :: rest) bound
      (y :: r.1, true)
    else
      let r := bubblePass (y :: rest) bound
      (x :: r.1, r.2)
  | l, _ => (l, false)

/-- Model of `bubbleSort`'s outer `while (!sorted)` loop with current
boundary `unsortedUntilIndex = u`: run one pass over `[0, u)`; if no
swap happened the flag stays `sorted` and the loop exits; else continue
with `u - 1`.  At `u = 0` the pass is empty, so the loop always exits
(the trailing `size_t` decrement that wraps `u` below zero happens
after the final pass and the wrapped value is never used). -/
def bubbleLoop : List Int → Nat → List Int
  | arr, 0 => arr
  | arr, u + 1 =>
    let p := bubblePass arr (u + 1)
    if p.2 then bubbleLoop p.1 u else p.1

/-- Model of `bubbleSort` (src/unnamed/part_000): early return on an
empty vector, else loop from `unsortedUntilIndex = size - 1`. -/
def bubbleSort (arr : List Int) : List Int :=
  match arr with
  | [] => arr
  | _ :: _ => bubbleLoop arr (arr.length - 1)

/-! ### Helper lemmas about the direction relations -/

theorem dirRel_refl (asc : Bool) (x : Int) : dirRel asc x x := by
  cases asc <;> simp [dirRel]

theorem dirRel_of_sLt {asc : Bool} {x y : Int} (h : sLt asc x y) : dirRel asc x y := by
  cases asc <;> simp [dirRel, sLt] at * <;> omega

theorem ne_of_sLt {asc : Bool} {x y : Int} (h : sLt asc x y) : x ≠ y := by
  cases asc <;> simp [sLt] at h <;> omega

theorem sLt_of_not_sLt_of_ne {asc : Bool} {x v : Int}
    (h1 : ¬ x = v) (h2 : ¬ sLt asc x v) : sLt asc v x := by
  cases asc <;> simp [sLt] at * <;> omega

theorem sLt_of_dirRel_of_sLt {asc : Bool} {x y z : Int}
    (h1 : dirRel asc x y) (h2 : sLt asc y z) : sLt asc x z := by
  cases asc <;> simp [dirRel, sLt] at * <;> omega

theorem sLt_of_sLt_of_dirRel {asc : Bool} {x y z : Int}
    (h1 : sLt asc x y) (h2 : dirRel asc y z) : sLt asc x z := by
  cases asc <;> simp [dirRel, sLt] at * <;> omega

theorem pairwise_get {R : Int → Int → Prop} {l : List Int} (hs : l.Pairwise R)
    {i j : Nat} (hi : i < l.length) (hj : j < l.length) (hij : i < j) :
    R (l.get ⟨i, hi⟩) (l.get ⟨j, hj⟩) :=
  List.pairwise_iff_get.mp hs ⟨i, hi⟩ ⟨j, hj⟩ hij

/-! ### Specification of the binary-search loop -/

/-- Invariant-based specification of `bsLoop` on a direction-sorted
buffer: with enough fuel, a `found i` exit returns an in-range index
holding the query value; a `notFound l` exit returns the boundary with
everything below `l` strictly direction-below the query and everything
from `l` on strictly direction-above it; an error exit (the modelled
`size_t` wraparound probe) can only happen when the query is strictly
direction-below the first element. -/
theorem bsLoop_spec (data : List Int) (asc : Bool) (v : Int)
    (hs : data.Pairwise (dirRel asc)) :
    ∀ fuel left right, right + 1 - left < fuel → right < data.length →
      left ≤ right + 1 →
      (∀ j (hj : j < data.length), j < left → sLt asc (data.get ⟨j, hj⟩) v) →
      (∀ j (hj : j < data.length), right < j → sLt asc v (data.get ⟨j, hj⟩)) →
      (∀ i, bsLoop data asc v fuel left right = .ok (.found i) →
          ∃ hi : i < data.length, data.get ⟨i, hi⟩ = v) ∧
      (∀ l, bsLoop data asc v fuel left right = .ok (.notFound l) →
          l ≤ data.length ∧
          (∀ j (hj : j < data.length), j < l → sLt asc (data.get ⟨j, hj⟩) v) ∧
          (∀ j (hj : j < data.length), l ≤ j → sLt asc v (data.get ⟨j, hj⟩))) ∧
      (∀ e, bsLoop data asc v fuel left right = .error e →
          ∀ h0 : 0 < data.length, sLt asc v (data.get ⟨0, h0⟩)) := by
  intro fuel
  induction fuel with
  | zero => intro left right hfuel; omega
  | succ fuel ih =>
    intro left right hfuel hr hlr hL hR
    by_cases hc : left ≤ right
    · have hmid : left + (right - left) / 2 < data.length := by omega
      have hget : data.get? (left + (right - left) / 2) =
          some (data.get ⟨left + (right - left) / 2, hmid⟩) :=
        List.get?_eq_get hmid
      by_cases heq : data.get ⟨left + (right - left) / 2, hmid⟩ = v
      · refine ⟨?_, ?_, ?_⟩
        · intro i h
          simp only [bsLoop, if_pos hc, hget, if_pos heq] at h
          obtain rfl : left + (right - left) / 2 = i := by
            cases h; rfl
          exact ⟨hmid, heq⟩
        · intro l h
          simp only [bsLoop, if_pos hc, hget, if_pos heq] at h
          simp at h
        · intro e h
          simp only [bsLoop, if_pos hc, hget, if_pos heq] at h
          simp at h
      · by_cases hlt : sLt asc (data.get ⟨left + (right - left) / 2, hmid⟩) v
        · -- the probe is strictly direction-below the query: left = mid + 1
          have hrec := ih (left + (right - left) / 2 + 1) right (by omega) hr (by omega)
            (fun j hj hjlt => by
              rcases Nat.lt_or_ge j left with hj2 | hj2
              · exact hL j hj hj2
              · rcases Nat.lt_or_ge j (left + (right - left) / 2) with hj3 | hj3
                · exact sLt_of_dirRel_of_sLt (pairwise_get hs hj hmid hj3) hlt
                · have : j = left + (right - left) / 2 := by omega
                  subst this; exact hlt)
            hR
          refine ⟨?_, ?_, ?_⟩
          · intro i h
            simp only [bsLoop, if_pos hc, hget, if_neg heq, if_pos hlt] at h
            exact hrec.1 i h
          · intro l h
            simp only [bsLoop, if_pos hc, hget, if_neg heq, if_pos hlt] at h
            exact hrec.2.1 l h
          · intro e h
            simp only [bsLoop, if_pos hc, hget, if_neg heq, if_pos hlt] at h
            exact hrec.2.2 e h
        · have hgt : sLt asc v (data.get ⟨left + (right - left) / 2, hmid⟩) :=
            sLt_of_not_sLt_of_ne heq hlt
          by_cases h0 : left + (right - left) / 2 = 0
          · -- right = mid - 1 wraps below zero: the modelled UB error
            refine ⟨?_, ?_, ?_⟩
            · intro i h
              simp only [bsLoop, if_pos hc, hget, if_neg heq, if_neg hlt, if_pos h0] at h
              simp at h
            · intro l h
              simp only [bsLoop, if_pos hc, hget, if_neg heq, if_neg hlt, if_pos h0] at h
              simp at h
            · intro e h hlen
              have : (⟨left + (right - left) / 2, hmid⟩ : Fin data.length) = ⟨0, hlen⟩ := by
                simp [h0]
              rw [this] at hgt
              exact hgt
          · -- the probe is strictly direction-above the query: right = mid - 1
            have hrec := ih left (left + (right - left) / 2 - 1) (by omega)
              (by omega) (by omega) hL
              (fun j hj hjgt => by
                rcases Nat.lt_or_ge j (left + (right - left) / 2 + 1) with hj2 | hj2
                · have : j = left + (right - left) / 2 := by omega
                  subst this; exact hgt
                · exact sLt_of_sLt_of_dirRel hgt (pairwise_get hs hmid hj (by omega)))
            refine ⟨?_, ?_, ?_⟩
            · intro i h
              simp only [bsLoop, if_pos hc, hget, if_neg heq, if_neg hlt, if_neg h0] at h
              exact hrec.1 i h
            · intro l h
              simp only [bsLoop, if_pos hc, hget, if_neg heq, if_neg hlt, if_neg h0] at h
              exact hrec.2.1 l h
            · intro e h
              simp only [bsLoop, if_pos hc, hget, if_neg heq, if_neg hlt, if_neg h0] at h
              exact hrec.2.2 e h
    · -- loop exit: left > right, result notFound left
      refine ⟨?_, ?_, ?_⟩
      · intro i h
        simp [bsLoop, if_neg hc] at h
      · intro l h
        simp only [bsLoop, if_neg hc] at h
        obtain rfl : left = l := by cases h; rfl
        exact ⟨by omega, hL, fun j hj hjge => hR j hj (by omega)⟩
      · intro e h
        simp [bsLoop, if_neg hc] at h

/-! ### Derived specifications of `binarySearch` -/

theorem forall_take_of_forall_get {l : List Int} {k : Nat} {P : Int → Prop}
    (h : ∀ j (hj : j < l.length), j < k → P (l.get ⟨j, hj⟩)) :
    ∀ x ∈ l.take k, P x := by
  intro x hx
  obtain ⟨j, hj, hget⟩ := List.mem_iff_getElem.mp hx
  have hj2 : j < l.length := by
    have := List.length_take k l
    omega
  have hjk : j < k := by
    have := List.length_take k l
    omega
  have : (l.take k)[j] = l[j] := List.getElem_take l
  rw [this] at hget
  have := h j hj2 hjk
  rw [List.get_eq_getElem] at this
  rwa [hget] at this

theorem forall_drop_of_forall_get {l : List Int} {k : Nat} {P : Int → Prop}
    (h : ∀ j (hj : j < l.length), k ≤ j → P (l.get ⟨j, hj⟩)) :
    ∀ x ∈ l.drop k, P x := by
  intro x hx
  obtain ⟨j, hj, hget⟩ := List.mem_iff_getElem.mp hx
  have hj2 : k + j < l.length := by
    have := List.length_drop k l
    omega
  have : (l.drop k)[j] = l[k + j] := List.getElem_drop l
  rw [this] at hget
  have := h (k + j) hj2 (by omega)
  rw [List.get_eq_getElem] at this
  rwa [hget] at this

/-- Specification of the insertion-point search on a direction-sorted
buffer: a successful `binarySearch(value, true)` returns a nonnegative
index `k ≤ size` such that inserting `value` at `k` keeps the buffer
direction-sorted (everything before `k` is direction-below `value`,
everything from `k` on is direction-above it). -/
theorem binarySearch_insertion_spec {data : List Int} {asc : Bool} {v : Int}
    (hs : data.Pairwise (dirRel asc)) {idx : Int}
    (h : binarySearch data asc v true = .ok idx) :
    ∃ k, idx = Int.ofNat k ∧ k ≤ data.length ∧
      (∀ x ∈ data.take k, dirRel asc x v) ∧
      (∀ x ∈ data.drop k, dirRel asc v x) := by
  unfold binarySearch at h
  by_cases hlen : data.length = 0
  · rw [if_pos hlen] at h
    cases h
  · rw [if_neg hlen] at h
    have hspec := bsLoop_spec data asc v hs (data.length + 1) 0 (data.length - 1)
      (by omega) (by omega) (by omega)
      (fun j hj hjlt => absurd hjlt (by omega))
      (fun j hj hjgt => absurd hj (by omega))
    cases hbs : bsLoop data asc v (data.length + 1) 0 (data.length - 1) with
    | error e =>
      rw [hbs] at h
      cases h
    | ok res =>
      cases res with
      | found i =>
        rw [hbs] at h
        obtain ⟨hi, hv⟩ := hspec.1 i hbs
        obtain rfl : Int.ofNat i = idx := by cases h; rfl
        refine ⟨i, rfl, by omega, ?_, ?_⟩
        · exact forall_take_of_forall_get fun j hj hjlt =>
            hv ▸ pairwise_get hs hj hi hjlt
        · exact forall_drop_of_forall_get fun j hj hjge => by
            rcases Nat.lt_or_ge i j with h2 | h2
            · exact hv ▸ pairwise_get hs hi hj h2
            · have : j = i := by omega
              subst this
              exact hv ▸ dirRel_refl asc _
      | notFound l =>
        rw [hbs] at h
        obtain ⟨hlen2, hbelow, habove⟩ := hspec.2.1 l hbs
        obtain rfl : Int.ofNat l = idx := by
          simp only [if_pos rfl] at h
          cases h; rfl
        refine ⟨l, rfl, hlen2, ?_, ?_⟩
        · exact forall_take_of_forall_get fun j hj hjlt => dirRel_of_sLt (hbelow j hj hjlt)
        · exact forall_drop_of_forall_get fun j hj hjge => dirRel_of_sLt (habove j hj hjge)

/-- Inserting a value at an index that separates direction-below from
direction-above elements preserves pairwise direction-sortedness. -/
theorem pairwise_insertIdx {R : Int → Int → Prop} :
    ∀ (l : List Int) (k : Nat) (v : Int), k ≤ l.length → l.Pairwise R →
      (∀ x ∈ l.take k, R x v) → (∀ x ∈ l.drop k, R v x) →
      (l.insertIdx k v).Pairwise R := by
  intro l
  induction l with
  | nil =>
    intro k v hk _ _ hdrop
    obtain rfl : k = 0 := by simpa using hk
    simp
  | cons x t ih =>
    intro k v hk hp htake hdrop
    cases k with
    | zero =>
      simp only [List.insertIdx_zero]
      exact List.Pairwise.cons (fun y hy => hdrop y (by simpa using hy)) hp
    | succ k =>
      simp only [List.insertIdx_succ_cons]
      have hk2 : k ≤ t.length := by simpa using hk
      refine List.Pairwise.cons ?_ ?_
      · intro y hy
        rcases (List.mem_insertIdx hk2).mp hy with rfl | hy2
        · exact htake x (by simp)
        · exact List.rel_of_pairwise_cons hp hy2
      · exact ih k v hk2 hp.of_cons
          (fun z hz => htake z (by simp [List.take_succ_cons, hz]))
          (fun z hz => hdrop z (by simpa using hz))

/-! ### Preservation of the sort invariant -/

/-- Shape of a successful `OrderedArray::insert`: the search succeeded
with some index `idx` and the new state holds `insertIdx idx.toNat value`
with the direction flag unchanged. -/
theorem insert_ok_shape {a b : OrderedArray} {v : Int} (h : a.insert v = .ok b) :
    ∃ idx cap, binarySearch a.data a.isAscending v true = .ok idx ∧
      b = ⟨a.data.insertIdx idx.toNat v, cap, a.isAscending⟩ := by
  simp only [OrderedArray.insert] at h
  generalize (if a.capacity ≤ a.size then a.capacity * 2 else a.capacity) = nc at h
  split at h
  · cases h
  · cases hbs : binarySearch a.data a.isAscending v true with
    | error e =>
      rw [hbs] at h
      have h2 : (Except.error e : Except ArrErr OrderedArray) = .ok b := h
      cases h2
    | ok idx =>
      rw [hbs] at h
      have h2 : (if a.size < nc then
          (Except.ok ⟨a.data.insertIdx idx.toNat v, nc, a.isAscending⟩ :
            Except ArrErr OrderedArray)
          else .error .oob) = .ok b := h
      by_cases hlt : a.size < nc
      · rw [if_pos hlt] at h2
        injection h2 with h3
        exact ⟨idx, nc, rfl, h3.symm⟩
      · rw [if_neg hlt] at h2
        cases h2

/-- A successful `OrderedArray::insert` on a direction-sorted state
yields a direction-sorted state. -/
theorem OrdInv_insert {a b : OrderedArray} {v : Int}
    (ha : OrdInv a) (h : a.insert v = .ok b) : OrdInv b := by
  obtain ⟨idx, cap, hbs, rfl⟩ := insert_ok_shape h
  obtain ⟨k, hk, hkle, htake, hdrop⟩ := binarySearch_insertion_spec ha hbs
  subst hk
  simpa [OrdInv, Int.toNat_ofNat] using
    pairwise_insertIdx a.data k v hkle ha htake hdrop

/-- A successful `OrderedArray::remove` on a direction-sorted state
yields a direction-sorted state (removal only deletes, never reorders). -/
theorem OrdInv_remove {a b : OrderedArray} {index : Nat}
    (ha : OrdInv a) (h : a.remove index = .ok b) : OrdInv b := by
  simp only [OrderedArray.remove] at h
  split at h
  · cases h
  · cases h
    exact List.Pairwise.sublist (List.eraseIdx_sublist a.data index) ha

/-- Both constructors establish the sort invariant. -/
theorem OrdInv_new (ascending : Bool) : OrdInv (OrderedArray.new ascending) :=
  List.Pairwise.nil

theorem OrdInv_ofList (l : List Int) (ascending : Bool) :
    OrdInv (OrderedArray.ofList l ascending) :=
  List.sorted_insertionSort (dirRel ascending) l

/-- On a direction-sorted buffer that contains the query value, the
insertion-point search always succeeds (no wraparound, no out-of-bounds
probe) and returns the index of an element equal to the query. -/
theorem binarySearch_insertion_mem {data : List Int} {asc : Bool} {v : Int}
    (hs : data.Pairwise (dirRel asc)) (hv : v ∈ data) :
    ∃ k, binarySearch data asc v true = .ok (Int.ofNat k) ∧ data.get? k = some v := by
  obtain ⟨j, hj, hvj⟩ := List.mem_iff_getElem.mp hv
  have hlen : ¬ data.length = 0 := by omega
  have hspec := bsLoop_spec data asc v hs (data.length + 1) 0 (data.length - 1)
    (by omega) (by omega) (by omega)
    (fun j hj hjlt => absurd hjlt (by omega))
    (fun j hj hjgt => absurd hj (by omega))
  unfold binarySearch
  rw [if_neg hlen]
  cases hbs : bsLoop data asc v (data.length + 1) 0 (data.length - 1) with
  | error e =>
    exfalso
    have h0 : 0 < data.length := by omega
    have hv0 : sLt asc v (data.get ⟨0, h0⟩) := hspec.2.2 e hbs h0
    have hvj2 : sLt asc v (data.get ⟨j, hj⟩) := by
      rcases Nat.eq_zero_or_pos j with rfl | hjpos
      · exact hv0
      · exact sLt_of_sLt_of_dirRel hv0 (pairwise_get hs h0 hj hjpos)
    rw [List.get_eq_getElem] at hvj2
    exact ne_of_sLt hvj2 hvj.symm
  | ok res =>
    cases res with
    | found i =>
      obtain ⟨hi, hvi⟩ := hspec.1 i hbs
      refine ⟨i, rfl, ?_⟩
      rw [List.get?_eq_get hi, hvi]
    | notFound l =>
      exfalso
      obtain ⟨hlen2, hbelow, habove⟩ := hspec.2.1 l hbs
      rcases Nat.lt_or_ge j l with hjl | hjl
      · have := hbelow j hj hjl
        rw [List.get_eq_getElem] at this
        exact ne_of_sLt this hvj
      · have := habove j hj hjl
        rw [List.get_eq_getElem] at this
        exact ne_of_sLt this hvj.symm

/-! ### Correctness of `bubbleSort` -/

/-- One bounded pass decomposes as: a permutation `q ++ [m]` of the
first `bound + 1` elements — with the running maximum `m` carried into
position `bound` — followed by the untouched tail. -/
theorem bubblePass_decomp :
    ∀ (bound : Nat) (l : List Int), bound < l.length →
      ∃ q m, (bubblePass l bound).1 = q ++ m :: l.drop (bound + 1) ∧
        q.length = bound ∧ (q ++ [m]).Perm (l.take (bound + 1)) ∧
        ∀ z ∈ q, z ≤ m := by
  intro bound
  induction bound with
  | zero =>
    intro l hl
    match l, hl with
    | x :: t, _ =>
      exact ⟨[], x, by simp [bubblePass], rfl, by simp, by simp⟩
  | succ u ih =>
    intro l hl
    match l, hl with
    | x :: y :: rest, hl2 =>
      by_cases hxy : y < x
      · obtain ⟨q, m, h1, h2, h3, h4⟩ := ih (x :: rest) (by simp at hl2 ⊢; omega)
        refine ⟨y :: q, m, ?_, by simp [h2], ?_, ?_⟩
        · simp only [bubblePass, if_pos hxy]
          simp only [h1, List.drop_succ_cons, List.cons_append]
        · have : (y :: (q ++ [m])).Perm (y :: x :: rest.take u) := by
            refine List.Perm.cons y (h3.trans ?_)
            simp [List.take_succ_cons]
          refine (this.trans (List.Perm.swap x y _)).trans ?_
          simp [List.take_succ_cons]
        · intro z hz
          have hxm : x ≤ m := by
            have hxmem : x ∈ q ++ [m] := h3.mem_iff.mpr (by simp [List.take_succ_cons])
            rcases List.mem_append.mp hxmem with hq | hm
            · exact h4 x hq
            · simp at hm
              omega
          rcases List.mem_cons.mp hz with rfl | hq
          · omega
          · exact h4 z hq
      · obtain ⟨q, m, h1, h2, h3, h4⟩ := ih (y :: rest) (by simp at hl2 ⊢; omega)
        refine ⟨x :: q, m, ?_, by simp [h2], ?_, ?_⟩
        · simp only [bubblePass, if_neg hxy]
          simp only [h1, List.drop_succ_cons, List.cons_append]
        · have hstep : (q ++ [m]).Perm (y :: rest.take u) := by
            rw [List.take_succ_cons] at h3
            exact h3
          have hcons : ((x :: q) ++ [m]).Perm (x :: y :: rest.take u) :=
            List.Perm.cons x hstep
          simpa [List.take_succ_cons] using hcons
        · intro z hz
          have hym : y ≤ m := by
            have hymem : y ∈ q ++ [m] := h3.mem_iff.mpr (by simp [List.take_succ_cons])
            rcases List.mem_append.mp hymem with hq | hm
            · exact h4 y hq
            · simp at hm
              omega
          rcases List.mem_cons.mp hz with rfl | hq
          · omega
          · exact h4 z hq

/-- A pass that performs no swap leaves the list unchanged and certifies
that adjacent elements up to the boundary are already in order. -/
theorem bubblePass_noswap :
    ∀ (bound : Nat) (l : List Int), (bubblePass l bound).2 = false →
      (bubblePass l bound).1 = l ∧ List.Chain' (· ≤ ·) (l.take (bound + 1)) := by
  intro bound
  induction bound with
  | zero =>
    intro l _
    refine ⟨by cases l with
      | nil => rfl
      | cons x t => cases t <;> rfl, ?_⟩
    cases l with
    | nil => simp
    | cons x t => simp [List.take_succ_cons]
  | succ u ih =>
    intro l hsw
    cases l with
    | nil => exact ⟨rfl, by simp⟩
    | cons x t =>
      cases t with
      | nil => exact ⟨rfl, by simp⟩
      | cons y rest =>
        by_cases hxy : y < x
        · exfalso
          simp [bubblePass, if_pos hxy] at hsw
        · have hsw2 : (bubblePass (y :: rest) u).2 = false := by
            simpa [bubblePass, if_neg hxy] using hsw
          obtain ⟨hid, hch⟩ := ih (y :: rest) hsw2
          constructor
          · simp only [bubblePass, if_neg hxy, hid]
          · rw [List.take_succ_cons]
            rw [List.take_succ_cons] at hch
            exact List.chain'_cons.mpr ⟨by omega, hch⟩

/-- Invariant proof for the outer loop: if everything beyond the active
boundary is sorted and direction-dominates the active prefix, the loop
returns a sorted permutation of its input. -/
theorem bubbleLoop_sorted :
    ∀ (u : Nat) (arr : List Int), u < arr.length →
      List.Pairwise (· ≤ ·) (arr.drop (u + 1)) →
      (∀ x ∈ arr.take (u + 1), ∀ y ∈ arr.drop (u + 1), x ≤ y) →
      List.Pairwise (· ≤ ·) (bubbleLoop arr u) ∧ (bubbleLoop arr u).Perm arr := by
  intro u
  induction u with
  | zero =>
    intro arr hu hdrop hcross
    refine ⟨?_, List.Perm.refl _⟩
    show List.Pairwise (· ≤ ·) arr
    match arr, hu with
    | x :: t, _ =>
      refine List.pairwise_cons.mpr ⟨?_, by simpa using hdrop⟩
      intro y hy
      exact hcross x (by simp) y (by simpa using hy)
  | succ u ih =>
    intro arr hu hdrop hcross
    obtain ⟨q, m, h1, h2, h3, h4⟩ := bubblePass_decomp (u + 1) arr hu
    show List.Pairwise (· ≤ ·)
        (if (bubblePass arr (u + 1)).2 then bubbleLoop (bubblePass arr (u + 1)).1 u
          else (bubblePass arr (u + 1)).1) ∧
      (if (bubblePass arr (u + 1)).2 then bubbleLoop (bubblePass arr (u + 1)).1 u
          else (bubblePass arr (u + 1)).1).Perm arr
    cases hsw : (bubblePass arr (u + 1)).2 with
    | false =>
      obtain ⟨hid, hch⟩ := bubblePass_noswap (u + 1) arr hsw
      rw [if_neg (by simp), hid]
      refine ⟨?_, List.Perm.refl _⟩
      have hpre : List.Pairwise (· ≤ ·) (arr.take (u + 2)) :=
        List.chain'_iff_pairwise.mp hch
      rw [← List.take_append_drop (u + 2) arr]
      exact List.pairwise_append.mpr ⟨hpre, hdrop, hcross⟩
    | true =>
      rw [if_pos (by simp)]
      have hmem_m : m ∈ arr.take (u + 2) := h3.mem_iff.mp (by simp)
      have hlenp : (bubblePass arr (u + 1)).1.length = arr.length := by
        rw [h1]
        simp only [List.length_append, List.length_cons, List.length_drop, h2]
        omega
      have htakeP : (bubblePass arr (u + 1)).1.take (u + 1) = q := by
        rw [h1, ← h2, List.take_left]
      have hdropP : (bubblePass arr (u + 1)).1.drop (u + 1) = m :: arr.drop (u + 2) := by
        rw [h1, ← h2, List.drop_left, h2]
      obtain ⟨hsort, hperm⟩ := ih (bubblePass arr (u + 1)).1
        (by omega)
        (by
          rw [hdropP]
          exact List.pairwise_cons.mpr ⟨fun y hy => hcross m hmem_m y hy, hdrop⟩)
        (by
          rw [htakeP, hdropP]
          intro z hz y hy
          rcases List.mem_cons.mp hy with rfl | hy2
          · exact h4 z hz
          · have hzmem : z ∈ arr.take (u + 2) :=
              h3.mem_iff.mp (List.mem_append.mpr (Or.inl hz))
            exact hcross z hzmem y hy2)
      refine ⟨hsort, hperm.trans ?_⟩
      rw [h1, List.append_cons]
      have hstep := h3.append_right (arr.drop (u + 2))
      refine hstep.trans ?_
      rw [List.take_append_drop]

/-! ### Claim theorems -/

/-- C1 (code_bug evidence): capacity does NOT double exactly when an
insert would overflow it.  From the default constructor, `insert(0,5)`
reaches `size == capacity == 1`; the claim then requires the next
insert to double the capacity (since `size == capacity`) and succeed,
but `DynamicArray::insert(0,3)` tests `index >= capacity` (`0 >= 1` is
false), skips the resize, and its shift loop writes `data[1]` past the
end of the 1-cell buffer — modelled as the out-of-bounds error, with
the capacity still 1 and no doubling. -/
theorem c1_dyn_insert_full_no_doubling :
    DynamicArray.new.insert 0 5 = .ok ⟨[5], 1⟩ ∧
    (DynamicArray.new.insert 0 5).bind (fun a => a.insert 0 3) = .error .oob := by
  decide

/-- C2 (code_bug evidence): on an empty `OrderedArray` the binary
search does underflow: `right = size - 1` wraps on `size_t`, the
`left <= right` loop is entered, and the first probe reads far out of
bounds.  So `find` on an empty sequence is undefined behavior instead
of returning `-1`, and `insert` into an empty sequence is undefined
behavior instead of inserting at index 0. -/
theorem c2_empty_search_underflows :
    (OrderedArray.new true).find 0 = .error .oob ∧
    (OrderedArray.new true).insert 5 = .error .oob := by
  decide

/-- C3 (counterexample): the sort invariant does not hold "after every
finite sequence of insert and remove calls": the one-call sequence
`insert(2)` on a default-constructed (empty, descending) OrderedArray
never produces a post-state at all — the insertion-point search
underflows and reads out of bounds, so there is no "afterward". -/
theorem c3_insert_into_empty_no_afterstate :
    (OrderedArray.new false).insert 2 = .error .oob := by
  decide

/-- C3 (amended): after any finite sequence of `insert`/`remove` calls
that all complete successfully (each returning a new state rather than
signalling out-of-bounds access or OutOfRange), starting from any
constructed state, the sort invariant holds: for all `i < j < size`
the fixed-direction comparison holds non-strictly between elements `i`
and `j`. -/
theorem c3_reachable_states_sorted : ∀ a : OrderedArray, a.Reachable → OrdInv a := by
  intro a h
  induction h with
  | new ascending => exact OrdInv_new ascending
  | ofList l ascending => exact OrdInv_ofList l ascending
  | insertStep v hr hok ih => exact OrdInv_insert ih hok
  | removeStep i hr hok ih => exact OrdInv_remove ih hok

theorem c3_reachable_states_sorted_witness :
    OrdInv (⟨[3, 4, 5], 4, true⟩ : OrderedArray) :=
  c3_reachable_states_sorted _
    (OrderedArray.Reachable.insertStep 4
      (OrderedArray.Reachable.ofList [3, 5] true) (by decide))

/-- C4 (counterexample): the insertion-point search does NOT return the
leftmost position of a run of equal elements.  On the constructed state
holding `[5,5,5]` the first element equal to 5 is at index 0, but the
search `binarySearch(5, true)` probes `mid = 1`, hits equality there,
and returns 1. -/
theorem c4_search_not_leftmost :
    (OrderedArray.ofList [5, 5, 5] true).data = [5, 5, 5] ∧
    binarySearch [5, 5, 5] true 5 true = .ok 1 ∧
    [(5 : Int), 5, 5].get? 0 = some 5 := by
  decide

/-- C4 (amended): on a sorted state containing a run of one or more
elements equal to `v`, the insertion-point search used by `insert(v)`
succeeds and returns the position of SOME element of that run (an index
`k` with `element[k] == v`, so insertion keeps the run contiguous and
the order invariant intact), but not necessarily the leftmost one. -/
theorem c4_insertion_point_hits_run :
    ∀ (a : OrderedArray) (v : Int), OrdInv a → v ∈ a.data →
      ∃ k, binarySearch a.data a.isAscending v true = .ok (Int.ofNat k) ∧
        a.data.get? k = some v :=
  fun _ _ ha hv => binarySearch_insertion_mem ha hv

theorem c4_insertion_point_hits_run_witness :
    OrdInv (OrderedArray.ofList [5, 5, 5] true) ∧
    (5 : Int) ∈ (OrderedArray.ofList [5, 5, 5] true).data ∧
    (∃ k, binarySearch (OrderedArray.ofList [5, 5, 5] true).data
        (OrderedArray.ofList [5, 5, 5] true).isAscending 5 true = .ok (Int.ofNat k) ∧
      (OrderedArray.ofList [5, 5, 5] true).data.get? k = some 5) :=
  ⟨by decide, by decide,
    c4_insertion_point_hits_run (OrderedArray.ofList [5, 5, 5] true) 5
      (by decide) (by decide)⟩

/-- C5 (code_bug evidence): `find` does not always return `-1` when the
value is absent.  On the ascending `OrderedArray` holding `[3]`,
`find(1)` probes `mid = 0`, sees `3 > 1`, computes `right = mid - 1`
which wraps on `size_t`, keeps looping and reads out of bounds —
undefined behavior instead of the documented `-1`. -/
theorem c5_find_below_min_underflows :
    (OrderedArray.ofList [3] true).find 1 = .error .oob := by
  decide

/-- C6 (code_bug evidence): Scenario A itself hits the C1 resize bug.
After `insert(0,5)` and `insert(1,7)` the state is `[5,7]` with
`capacity == 2`; the third call `insert(0,3)` has `size == capacity == 2`
but `index == 0 < capacity`, so no resize happens and the shift loop
writes `data[2]` past the end of the 2-cell buffer — undefined behavior
instead of producing `[3,5,7]`. -/
theorem c6_scenarioA_third_insert_oob :
    (DynamicArray.new.insert 0 5).bind (fun a => a.insert 1 7) = .ok ⟨[5, 7], 2⟩ ∧
    ((DynamicArray.new.insert 0 5).bind (fun a => a.insert 1 7)).bind
      (fun a => a.insert 0 3) = .error .oob := by
  decide

/-- C7: for both variants, `remove(index)` with `index < size`
succeeds; the size decreases by exactly one, elements before `index`
are unchanged in place and value, and each element after `index` moves
down exactly one position with its value unchanged. -/
theorem c7_remove_shifts_down :
    (∀ (a : DynamicArray) (index : Nat), index < a.size →
      ∃ b, a.remove index = .ok b ∧ b.size + 1 = a.size ∧
        (∀ j, j < index → b.data[j]? = a.data[j]?) ∧
        (∀ j, index < j → j < a.size → b.data[j - 1]? = a.data[j]?)) ∧
    (∀ (a : OrderedArray) (index : Nat), index < a.size →
      ∃ b, a.remove index = .ok b ∧ b.size + 1 = a.size ∧
        (∀ j, j < index → b.data[j]? = a.data[j]?) ∧
        (∀ j, index < j → j < a.size → b.data[j - 1]? = a.data[j]?)) := by
  constructor
  · intro a index hidx
    refine ⟨⟨a.data.eraseIdx index, a.capacity⟩, ?_, ?_, ?_, ?_⟩
    · simp only [DynamicArray.remove]
      rw [if_neg (by omega)]
    · exact List.length_eraseIdx_add_one hidx
    · intro j hj
      exact List.getElem?_eraseIdx_of_lt a.data index j hj
    · intro j hj1 hj2
      have h := List.getElem?_eraseIdx_of_ge a.data index (j - 1) (by omega)
      rwa [Nat.sub_add_cancel (by omega)] at h
  · intro a index hidx
    refine ⟨⟨a.data.eraseIdx index, a.capacity, a.isAscending⟩, ?_, ?_, ?_, ?_⟩
    · simp only [OrderedArray.remove]
      rw [if_neg (by omega)]
    · exact List.length_eraseIdx_add_one hidx
    · intro j hj
      exact List.getElem?_eraseIdx_of_lt a.data index j hj
    · intro j hj1 hj2
      have h := List.getElem?_eraseIdx_of_ge a.data index (j - 1) (by omega)
      rwa [Nat.sub_add_cancel (by omega)] at h

theorem c7_remove_shifts_down_witness :
    (1 < (DynamicArray.ofList [7, 8, 9]).size ∧
      ∃ b, (DynamicArray.ofList [7, 8, 9]).remove 1 = .ok b ∧
        b.size + 1 = (DynamicArray.ofList [7, 8, 9]).size ∧
        (∀ j, j < 1 → b.data[j]? = (DynamicArray.ofList [7, 8, 9]).data[j]?) ∧
        (∀ j, 1 < j → j < (DynamicArray.ofList [7, 8, 9]).size →
          b.data[j - 1]? = (DynamicArray.ofList [7, 8, 9]).data[j]?)) ∧
    (1 < (OrderedArray.ofList [7, 8, 9] true).size ∧
      ∃ b, (OrderedArray.ofList [7, 8, 9] true).remove 1 = .ok b ∧
        b.size + 1 = (OrderedArray.ofList [7, 8, 9] true).size ∧
        (∀ j, j < 1 → b.data[j]? = (OrderedArray.ofList [7, 8, 9] true).data[j]?) ∧
        (∀ j, 1 < j → j < (OrderedArray.ofList [7, 8, 9] true).size →
          b.data[j - 1]? = (OrderedArray.ofList [7, 8, 9] true).data[j]?)) :=
  ⟨⟨by decide, c7_remove_shifts_down.1 (DynamicArray.ofList [7, 8, 9]) 1 (by decide)⟩,
   ⟨by decide, c7_remove_shifts_down.2 (OrderedArray.ofList [7, 8, 9] true) 1 (by decide)⟩⟩

/-- C8: every accessor, mutator, insert, or remove invoked with an index
outside its valid bound signals OutOfRange.  In the source the bound
check is the first statement of each operation, before any mutation;
in this model the error result is produced with no successor state, so
the pre-call state is untouched. -/
theorem c8_bounds_fail_fast :
    (∀ (a : DynamicArray) (index : Nat), a.size ≤ index →
      a.getAt index = .error .outOfRange) ∧
    (∀ (a : DynamicArray) (index : Nat) (value : Int), a.size ≤ index →
      a.setAt index value = .error .outOfRange) ∧
    (∀ (a : DynamicArray) (index : Nat), a.size ≤ index →
      a.remove index = .error .outOfRange) ∧
    (∀ (a : DynamicArray) (index : Nat) (value : Int), a.size < index →
      a.insert index value = .error .outOfRange) ∧
    (∀ (a : OrderedArray) (index : Nat), a.size ≤ index →
      a.get index = .error .outOfRange) ∧
    (∀ (a : OrderedArray) (index : Nat), a.size ≤ index →
      a.remove index = .error .outOfRange) := by
  refine ⟨?_, ?_, ?_, ?_, ?_, ?_⟩
  · intro a index h
    simp only [DynamicArray.getAt]
    rw [dif_pos h]
  · intro a index value h
    simp only [DynamicArray.setAt]
    rw [if_pos h]
  · intro a index h
    simp only [DynamicArray.remove]
    rw [if_pos h]
  · intro a index value h
    simp only [DynamicArray.insert]
    rw [if_pos h]
  · intro a index h
    simp only [OrderedArray.get]
    rw [dif_pos h]
  · intro a index h
    simp only [OrderedArray.remove]
    rw [if_pos h]

theorem c8_bounds_fail_fast_witness :
    ((DynamicArray.ofList [1]).size ≤ 1 ∧
      (DynamicArray.ofList [1]).getAt 1 = .error .outOfRange) ∧
    ((DynamicArray.ofList [1]).size ≤ 2 ∧
      (DynamicArray.ofList [1]).setAt 2 9 = .error .outOfRange) ∧
    ((DynamicArray.ofList [1]).size ≤ 1 ∧
      (DynamicArray.ofList [1]).remove 1 = .error .outOfRange) ∧
    ((DynamicArray.ofList [1]).size < 2 ∧
      (DynamicArray.ofList [1]).insert 2 9 = .error .outOfRange) ∧
    ((OrderedArray.ofList [1] true).size ≤ 1 ∧
      (OrderedArray.ofList [1] true).get 1 = .error .outOfRange) ∧
    ((OrderedArray.ofList [1] true).size ≤ 3 ∧
      (OrderedArray.ofList [1] true).remove 3 = .error .outOfRange) :=
  ⟨⟨by decide, c8_bounds_fail_fast.1 _ 1 (by decide)⟩,
   ⟨by decide, c8_bounds_fail_fast.2.1 _ 2 9 (by decide)⟩,
   ⟨by decide, c8_bounds_fail_fast.2.2.1 _ 1 (by decide)⟩,
   ⟨by decide, c8_bounds_fail_fast.2.2.2.1 _ 2 9 (by decide)⟩,
   ⟨by decide, c8_bounds_fail_fast.2.2.2.2.1 _ 1 (by decide)⟩,
   ⟨by decide, c8_bounds_fail_fast.2.2.2.2.2 _ 3 (by decide)⟩⟩

/-- C9: a sequence constructed from an empty literal has capacity
`0 * 2 = 0`, the growth step computes the doubled capacity as
`2 * 0 = 0`, and consequently every subsequent insert fails (it can
never obtain a positive capacity), so no insert ever raises the
capacity above 0. -/
theorem c9_zero_capacity_trap :
    (DynamicArray.ofList []).capacity = 0 ∧
    (∀ (index : Nat) (value : Int),
      ∃ e, (DynamicArray.ofList []).insert index value = .error e) ∧
    (∀ (ascending : Bool) (value : Int),
      ∃ e, (OrderedArray.ofList [] ascending).insert value = .error e) := by
  refine ⟨rfl, ?_, ?_⟩
  · intro index value
    cases index with
    | zero => exact ⟨.oob, rfl⟩
    | succ n =>
      refine ⟨.outOfRange, ?_⟩
      simp only [DynamicArray.insert]
      rw [if_pos (by simp [DynamicArray.ofList, DynamicArray.size])]
  · intro ascending value
    exact ⟨.oob, by cases ascending <;> rfl⟩

/-- C10: `bubbleSort` (a total function in this model, matching the
terminating C++ loop) sorts every integer vector into non-decreasing
order, and its result is a permutation of the input. -/
theorem c10_bubbleSort_sorts :
    ∀ arr : List Int,
      List.Sorted (· ≤ ·) (bubbleSort arr) ∧ (bubbleSort arr).Perm arr := by
  intro arr
  cases arr with
  | nil => exact ⟨List.sorted_nil, List.Perm.refl _⟩
  | cons x t =>
    have h := bubbleLoop_sorted ((x :: t).length - 1) (x :: t)
      (by simp)
      (by simp)
      (by simp)
    exact h
